import Mathlib

/-!
# Verification of the `trie-search-plus` trie implementation

This file gives a shallow embedding of the trie data structure from
`src/trie.js` (class `Trie` with node class `TrieNode`) and proves the
specification claims about it.

Modelling conventions:

* A JS `TrieNode` owns `children` (a dynamically keyed object mapping a
  one-character string to a child node) and the boolean `isEndOfWord`.
  We model the children object as an association list `List (Char × Node)`:
  JS object keys are unique, a fresh key is appended, an existing key is
  updated in place, and `delete obj[key]` removes the binding.
* JS strings are modelled as `List Char`.
* The recursive / iterative tree walks of the source translate to
  structural recursion; helper functions that iterate over
  `Object.entries(node.children)` recurse over the association list in
  order.
-/

/-- The `TrieNode` class of `trieNode.js`: a children map and an
end-of-word flag. -/
inductive Node where
  | mk (children : List (Char × Node)) (isEndOfWord : Bool)

/-- `node.children`. -/
def Node.children : Node → List (Char × Node)
  | .mk cs _ => cs

/-- `node.isEndOfWord`. -/
def Node.isEndOfWord : Node → Bool
  | .mk _ e => e

/-- `new TrieNode()`: empty children, flag false.  The `Trie` constructor
sets `this.root = new TrieNode()`, so this is also the empty trie. -/
def emptyNode : Node := .mk [] false

/-- Reading `node.children[char]` in the JS source: the value bound to
`char`, if any (first binding; keys are unique in every reachable state). -/
def getChild (cs : List (Char × Node)) (c : Char) : Option Node :=
  match cs with
  | [] => none
  | (c', n) :: rest => if c' = c then some n else getChild rest c

/-- Writing `node.children[char] = v` in the JS source: update the binding
in place if the key exists, otherwise append the new key (JS objects keep
insertion order for string keys). -/
def setChild (cs : List (Char × Node)) (c : Char) (v : Node) : List (Char × Node) :=
  match cs with
  | [] => [(c, v)]
  | (c', n) :: rest => if c' = c then (c, v) :: rest else (c', n) :: setChild rest c v

/-- `delete node.children[char]`: remove the binding. -/
def removeChild (cs : List (Char × Node)) (c : Char) : List (Char × Node) :=
  match cs with
  | [] => []
  | (c', n) :: rest => if c' = c then rest else (c', n) :: removeChild rest c

/-- The single-word insert `_insert(word)`: walk from the root, creating a
child for each missing character, and mark the final node. -/
def insertW (n : Node) : List Char → Node
  | [] => .mk n.children true
  | c :: w =>
      let child := (getChild n.children c).getD emptyNode
      .mk (setChild n.children c (insertW child w)) n.isEndOfWord

/-- The shared path-following loop of `search` / `startsWith` /
`autocomplete`: follow the exact child path, `none` when it breaks. -/
def followPath (n : Node) : List Char → Option Node
  | [] => some n
  | c :: w =>
      match getChild n.children c with
      | none => none
      | some child => followPath child w

/-- `search(word)`: false when the path breaks, otherwise the terminal
flag of the final node. -/
def search (n : Node) (w : List Char) : Bool :=
  match followPath n w with
  | none => false
  | some m => m.isEndOfWord

/-- `startsWith(prefix)`: true exactly when the full path exists. -/
def startsWith (n : Node) (w : List Char) : Bool :=
  (followPath n w).isSome

/-- The recursive helper `_deleteRecursively(node, word, depth)` of
`delete(word)`.  Returns the updated node together with the boolean the JS
helper returns ("this child should be detached"). -/
def deleteRec (n : Node) : List Char → Node × Bool
  | [] =>
      if !n.isEndOfWord then (n, false)
      else ((.mk n.children false), n.children.isEmpty)
  | c :: w =>
      match getChild n.children c with
      | none => (n, false)
      | some child =>
          let r := deleteRec child w
          if r.2 then
            let cs' := removeChild n.children c
            (.mk cs' n.isEndOfWord, !n.isEndOfWord && cs'.isEmpty)
          else
            (.mk (setChild n.children c r.1) n.isEndOfWord, false)

/-- `delete(word)`: run the recursive helper on the root and keep the
resulting tree (the helper's boolean is dropped at the top level). -/
def deleteW (n : Node) (w : List Char) : Node :=
  (deleteRec n w).1

mutual

/-- The `dfs(currNode, path)` of `autocomplete` (textually the same
traversal as `listWords`): emit `path` at a terminal node, then recurse
into each child in order with `path + ch`. -/
def collect : Node → List Char → List (List Char)
  | .mk cs e, path => (if e then [path] else []) ++ collectAll cs path

/-- The `for (const [ch, nextNode] of Object.entries(currNode.children))`
loop inside the enumeration dfs. -/
def collectAll : List (Char × Node) → List Char → List (List Char)
  | [], _ => []
  | (c, child) :: rest, path => collect child (path ++ [c]) ++ collectAll rest path

end

/-- `autocomplete(prefix)`: follow the prefix path (empty result if it
breaks), then enumerate the subtree. -/
def autocomplete (root : Node) (pfx : List Char) : List (List Char) :=
  match followPath root pfx with
  | none => []
  | some n => collect n pfx

/-- `listWords()`: enumerate the whole tree from the root with the empty
accumulated path. -/
def listWords (root : Node) : List (List Char) :=
  collect root []

mutual

/-- The counting dfs of `countWords()`. -/
def countW : Node → Nat
  | .mk cs e => (if e then 1 else 0) + countAll cs

/-- The children loop of the counting dfs. -/
def countAll : List (Char × Node) → Nat
  | [] => 0
  | (_, child) :: rest => countW child + countAll rest

end

/-- `countWords()` on the root. -/
def countWords (root : Node) : Nat := countW root

/-- The body of the `for (let i = 1; i < columns; i++)` loop of
`fuzzySearch`'s dfs, mirrored structurally: walk the remaining characters
of `word` together with the corresponding window of `prevRow`, carrying
the previously pushed entry of `currRow`.  At column `i` the JS loop reads
`currRow[i-1]` (`last`), `prevRow[i-1]` (`d0`), `prevRow[i]` (`d1`) and
`word[i-1]` (`w`), and pushes
`min(currRow[i-1]+1, prevRow[i]+1, prevRow[i-1] + (word[i-1] == c ? 0 : 1))`.
The final catch-all case is unreachable: `prevRow` always has
`word.length + 1` entries. -/
def rowAux (c : Char) : List Char → Nat → List Nat → List Nat
  | [], _, _ => []
  | w :: ws, last, d0 :: d1 :: ds =>
      let v := min (last + 1) (min (d1 + 1) (d0 + (if w = c then 0 else 1)))
      v :: rowAux c ws v (d1 :: ds)
  | _ :: _, _, _ => []

/-- One `currRow` computation of `fuzzySearch`'s dfs:
`currRow = [prevRow[0] + 1]` followed by the column loop.  `c` is the
character of the edge just descended (the JS code reads it back as
`prefix[prefix.length - 1]`).  The `[]` case is unreachable. -/
def currRowOf (word : List Char) (c : Char) (prevRow : List Nat) : List Nat :=
  match prevRow with
  | [] => []
  | d0 :: rest => (d0 + 1) :: rowAux c word (d0 + 1) (d0 :: rest)

/-- `Math.min(...currRow)` for the (always nonempty) DP row. -/
def jsMin : List Nat → Nat
  | [] => 0
  | x :: xs => xs.foldl min x

mutual

/-- The `dfs(node, prefix, prevRow)` of `fuzzySearch(word, maxDistance)`.
`pfx` is the accumulated prefix and `c` its last character (the edge just
descended; the JS source recomputes it as `prefix[prefix.length - 1]`).
Emit `pfx` when the final entry of `currRow` is within `maxDistance` and
the node is terminal; recurse into the children only when the minimum of
`currRow` is within `maxDistance`. -/
def fuzzyDfs (word : List Char) (maxD : Nat) : Node → List Char → Char → List Nat →
    List (List Char)
  | .mk cs e, pfx, c, prevRow =>
      let currRow := currRowOf word c prevRow
      (if currRow.getD word.length 0 ≤ maxD && e then [pfx] else []) ++
      (if jsMin currRow ≤ maxD then fuzzyAll word maxD cs pfx currRow else [])

/-- The children loop of the fuzzy dfs (also the loop over the root's
children that starts the search): for each child edge `ch` descend with
prefix `pfx + ch` and the current row. -/
def fuzzyAll (word : List Char) (maxD : Nat) : List (Char × Node) → List Char → List Nat →
    List (List Char)
  | [], _, _ => []
  | (ch, child) :: rest, pfx, row =>
      fuzzyDfs word maxD child (pfx ++ [ch]) ch row ++ fuzzyAll word maxD rest pfx row

end

/-- `fuzzySearch(word, maxDistance)`: branch from each child of the root
with the initial row `[...Array(word.length + 1).keys()] = [0, …, |word|]`;
the root itself never emits. -/
def fuzzySearch (root : Node) (word : List Char) (maxD : Nat) : List (List Char) :=
  fuzzyAll word maxD root.children [] (List.range (word.length + 1))

mutual

/-- The `dfs(node, i, path)` of `wildcardSearch(word)`, by recursion on
the remaining pattern: at the end of the pattern emit `path` at terminal
nodes; on `'.'` branch into every child; on a literal follow only the
matching child. -/
def wildDfs : Node → List Char → List Char → List (List Char)
  | n, [], path => if n.isEndOfWord then [path] else []
  | .mk cs _, ch :: rest, path =>
      if ch = '.' then wildAll cs rest path
      else wildFind cs ch rest path

/-- The `for (const [nextCh, childNode] of Object.entries(node.children))`
loop of the wildcard dfs. -/
def wildAll : List (Char × Node) → List Char → List Char → List (List Char)
  | [], _, _ => []
  | (c, child) :: cs, rest, path => wildDfs child rest (path ++ [c]) ++ wildAll cs rest path

/-- The literal-character branch `if (node.children[ch])
dfs(node.children[ch], i + 1, path + ch)`: look up the binding for `ch`
and descend into it (nothing when the path breaks). -/
def wildFind : List (Char × Node) → Char → List Char → List Char → List (List Char)
  | [], _, _, _ => []
  | (c, child) :: cs, ch, rest, path =>
      if c = ch then wildDfs child rest (path ++ [ch]) else wildFind cs ch rest path

end

/-- `wildcardSearch(word)`: run the dfs from the root with pattern
position 0 and empty path. -/
def wildcardSearch (root : Node) (pat : List Char) : List (List Char) :=
  wildDfs root pat []

/-- The progress object `{ processed, total, percentage }` passed to the
`onProgress` callback. -/
structure Progress where
  processed : Nat
  total : Nat
  percentage : Nat
deriving DecidableEq, Repr

/-- The resolution value `{ success, processed }` of a batch insert. -/
structure BatchResult where
  success : Bool
  processed : Nat
deriving DecidableEq, Repr

/-- The trie state produced by `_insertBatch(words, onProgress)`:
`words.forEach(word => { if (typeof word === 'string' && word.length > 0)
this._insert(word); })`.  (Inputs are modelled as strings, so the
`typeof` guard is always satisfied; the `length > 0` guard skips the
empty string.) -/
def insertBatchState (root : Node) (ws : List (List Char)) : Node :=
  ws.foldl (fun n w => if w.length > 0 then insertW n w else n) root

/-- The full observable behaviour of `_insertBatch(words, onProgress)` on
the synchronous path: the final trie state, the list of progress objects
passed to `onProgress` (one call, `{ processed: words.length, total:
words.length, percentage: 100 }`, only when a callback was supplied), and
the resolution value `{ success: true, processed: words.length }`.
`chunkSize` is accepted by `insert`'s options but never read on this
path. -/
def insertBatchRun (root : Node) (ws : List (List Char)) (chunkSize : Nat)
    (hasCallback : Bool) : Node × List Progress × BatchResult :=
  let _ := chunkSize
  (insertBatchState root ws,
   if hasCallback then [⟨ws.length, ws.length, 100⟩] else [],
   ⟨true, ws.length⟩)

/-- Sequential single-word inserts of a list of words (the reference
behaviour the batch path is claimed to match). -/
def seqInserts (root : Node) (ws : List (List Char)) : Node :=
  ws.foldl insertW root

/-- Operations of the public interface, used to state frame/reachability
properties over operation sequences. -/
inductive Op where
  | insertOp (w : List Char)
  | deleteOp (w : List Char)
  | searchOp (w : List Char)
  | startsWithOp (w : List Char)
  | autocompleteOp (w : List Char)
  | fuzzyOp (w : List Char) (d : Nat)
  | wildcardOp (p : List Char)
  | countOp
  | listOp

/-- Whether an operation is one of the two mutators. -/
def Op.isMutator : Op → Bool
  | .insertOp _ => true
  | .deleteOp _ => true
  | _ => false

/-- The trie state after running one operation.  `_insert` and `delete`
transform the tree; the query operations (`search`, `startsWith`,
`autocomplete`, `fuzzySearch`, `wildcardSearch`, `countWords`,
`listWords`) contain no assignment to any node field, so they leave the
state as it was. -/
def applyOp (t : Node) : Op → Node
  | .insertOp w => insertW t w
  | .deleteOp w => deleteW t w
  | .searchOp _ => t
  | .startsWithOp _ => t
  | .autocompleteOp _ => t
  | .fuzzyOp _ _ => t
  | .wildcardOp _ => t
  | .countOp => t
  | .listOp => t

/-- The trie state after running a sequence of operations from `t`. -/
def runOps (t : Node) : List Op → Node
  | [] => t
  | op :: ops => runOps (applyOp t op) ops

/-- States reachable from the empty trie by inserts and deletes. -/
inductive Reachable : Node → Prop where
  | empty : Reachable emptyNode
  | ins (w : List Char) {t : Node} : Reachable t → Reachable (insertW t w)
  | del (w : List Char) {t : Node} : Reachable t → Reachable (deleteW t w)

mutual

/-- Key well-formedness: the children object of every node binds each
character at most once (automatic for JS objects; an invariant of the
association-list model, maintained by `setChild` / `removeChild`). -/
def wfNode : Node → Prop
  | .mk cs _ => (cs.map Prod.fst).Nodup ∧ wfAll cs

/-- `wfNode` for every node of a children list. -/
def wfAll : List (Char × Node) → Prop
  | [] => True
  | (_, child) :: rest => wfNode child ∧ wfAll rest

end

mutual

/-- Whether the subtree rooted at a node contains a terminal node (the
node itself included): the path to this node is a prefix of some stored
word. -/
def hasWord : Node → Bool
  | .mk cs e => e || hasWordAll cs

/-- `hasWord` for some element of a children list. -/
def hasWordAll : List (Char × Node) → Bool
  | [] => false
  | (_, child) :: rest => hasWord child || hasWordAll rest

end

mutual

/-- The structural invariant of §3 of the spec: every node other than the
root is terminal or a strict ancestor of a terminal node.  Equivalently:
every child subtree of every node contains a terminal node. -/
def pruned : Node → Prop
  | .mk cs _ => prunedAll cs

/-- `pruned` plus nonemptiness of every subtree in a children list. -/
def prunedAll : List (Char × Node) → Prop
  | [] => True
  | (_, child) :: rest => hasWord child = true ∧ pruned child ∧ prunedAll rest

end

/-- Substitution cost between two characters (`word[i-1] == c ? 0 : 1`). -/
def subCost (x y : Char) : Nat := if x = y then 0 else 1

/-- Levenshtein edit distance with unit-cost insertions, deletions and
substitutions, in its textbook recursive form.  This is the
specification-side notion of distance the fuzzy-search claims refer to. -/
def lev : List Char → List Char → Nat
  | [], ys => ys.length
  | xs, [] => xs.length
  | x :: xs, y :: ys =>
      min (lev xs (y :: ys) + 1) (min (lev (x :: xs) ys + 1) (lev xs ys + subCost x y))

/-- The reversed prefixes of `ws`, each with `acc` appended:
`revPrefixes acc ws = [(ws.take i).reverse ++ acc | i = 0 … ws.length]`.
For `acc = []` these are exactly the second arguments whose distances to
the current trie path make up a DP row of `fuzzySearch`. -/
def revPrefixes (acc : List Char) : List Char → List (List Char)
  | [] => [acc]
  | w :: ws => acc :: revPrefixes (w :: acc) ws

/-- The DP row the fuzzy dfs carries for the (reversed) trie path `q`,
against search word `word`: entry `i` is the edit distance between `q`
and the reversed length-`i` prefix of `word`. -/
def rowFor (word q : List Char) : List Nat :=
  (revPrefixes [] word).map (lev q)

/-- Modelled from the claim's words, for claim C9: the number of chunks a
batch of `n` words splits into at `chunkSize` `c` (the number of
"processed chunk" callback invocations the claim asserts), `⌈n / c⌉`. -/
def specChunkCount (n c : Nat) : Nat := (n + c - 1) / c

/-- The matching relation of the wildcard-search claim: the stored word
has the same length as the pattern, agrees with it at every position
holding a literal character, and `'.'` matches any single character. -/
def patMatch : List Char → List Char → Bool
  | [], [] => true
  | a :: ws, c :: ps => (decide (c = '.') || decide (a = c)) && patMatch ws ps
  | _, _ => false

example : search (insertW emptyNode ['a', 'p']) ['a', 'p'] = true := by decide

example : listWords (insertW (insertW emptyNode ['a']) ['a', 'b']) = [['a'], ['a', 'b']] := by
  decide

example : deleteW (insertW emptyNode ['a']) ['a'] = emptyNode := rfl

example : countWords (insertW (insertW emptyNode ['a']) ['b']) = 2 := by decide

/-! ## Association-list (children object) lemmas -/

theorem getChild_setChild_self (cs : List (Char × Node)) (c : Char) (v : Node) :
    getChild (setChild cs c v) c = some v := by
  induction cs with
  | nil => simp [setChild, getChild]
  | cons p rest ih =>
      obtain ⟨c', n⟩ := p
      by_cases h : c' = c
      · simp [setChild, h, getChild]
      · simp [setChild, h, getChild, ih]

theorem getChild_setChild_ne (cs : List (Char × Node)) {a c : Char} (v : Node)
    (h : a ≠ c) : getChild (setChild cs c v) a = getChild cs a := by
  induction cs with
  | nil => simp [setChild, getChild, h.symm]
  | cons p rest ih =>
      obtain ⟨c', n⟩ := p
      by_cases hc : c' = c
      · subst hc
        simp [setChild, getChild, h.symm]
      · simp [setChild, hc, getChild, ih]

theorem getChild_removeChild_ne (cs : List (Char × Node)) {a c : Char}
    (h : a ≠ c) : getChild (removeChild cs c) a = getChild cs a := by
  induction cs with
  | nil => simp [removeChild]
  | cons p rest ih =>
      obtain ⟨c', n⟩ := p
      by_cases hc : c' = c
      · subst hc
        simp [removeChild, getChild, h.symm]
      · simp [removeChild, hc, getChild, ih]

theorem getChild_removeChild_self {cs : List (Char × Node)} {c : Char}
    (h : (cs.map Prod.fst).Nodup) : getChild (removeChild cs c) c = none := by
  induction cs with
  | nil => simp [removeChild, getChild]
  | cons p rest ih =>
      obtain ⟨c', n⟩ := p
      simp only [List.map_cons, List.nodup_cons] at h
      by_cases hc : c' = c
      · subst hc
        cases hg : getChild rest c' with
        | none => simp [removeChild, hg]
        | some m =>
            exfalso
            apply h.1
            clear ih h
            induction rest with
            | nil => simp [getChild] at hg
            | cons q qs ihq =>
                obtain ⟨a, m'⟩ := q
                by_cases ha : a = c'
                · simp [ha]
                · simp only [getChild, ha, if_false] at hg
                  simpa using Or.inr (ihq hg)
      · simp [removeChild, hc, getChild, ih h.2]

theorem setChild_eq_of_getChild {cs : List (Char × Node)} {c : Char} {v : Node}
    (h : getChild cs c = some v) : setChild cs c v = cs := by
  induction cs with
  | nil => simp [getChild] at h
  | cons p rest ih =>
      obtain ⟨c', n⟩ := p
      by_cases hc : c' = c
      · subst hc
        simp only [getChild, if_pos, Option.some.injEq] at h
        simp [setChild, h]
      · simp only [getChild, hc, if_false] at h
        simp [setChild, hc, ih h]

theorem getChild_mem {cs : List (Char × Node)} {c : Char} {n : Node}
    (h : getChild cs c = some n) : (c, n) ∈ cs := by
  induction cs with
  | nil => simp [getChild] at h
  | cons p rest ih =>
      obtain ⟨c', m⟩ := p
      by_cases hc : c' = c
      · subst hc
        simp only [getChild, if_pos, Option.some.injEq] at h
        simp [h]
      · simp only [getChild, hc, if_false] at h
        exact List.mem_cons_of_mem _ (ih h)

theorem getChild_isSome_iff (cs : List (Char × Node)) (c : Char) :
    (getChild cs c).isSome = true ↔ c ∈ cs.map Prod.fst := by
  induction cs with
  | nil => simp [getChild]
  | cons p rest ih =>
      obtain ⟨c', n⟩ := p
      by_cases hc : c' = c
      · subst hc
        simp [getChild]
      · simp [getChild, hc, ih, Ne.symm hc]

theorem keys_setChild (cs : List (Char × Node)) (c : Char) (v : Node) :
    (setChild cs c v).map Prod.fst =
      if c ∈ cs.map Prod.fst then cs.map Prod.fst else cs.map Prod.fst ++ [c] := by
  induction cs with
  | nil => simp [setChild]
  | cons p rest ih =>
      obtain ⟨c', n⟩ := p
      by_cases hc : c' = c
      · subst hc
        simp [setChild]
      · simp only [setChild, hc, if_false, List.map_cons, ih]
        by_cases hm : c ∈ rest.map Prod.fst <;> simp [hm, Ne.symm hc]

theorem nodup_keys_setChild {cs : List (Char × Node)} (c : Char) (v : Node)
    (h : (cs.map Prod.fst).Nodup) : ((setChild cs c v).map Prod.fst).Nodup := by
  rw [keys_setChild]
  by_cases hm : c ∈ cs.map Prod.fst
  · simpa [hm] using h
  · simpa [hm] using List.Nodup.append h (by simp) (by simpa using hm)

theorem keys_removeChild_sublist (cs : List (Char × Node)) (c : Char) :
    ((removeChild cs c).map Prod.fst).Sublist (cs.map Prod.fst) := by
  induction cs with
  | nil => simp [removeChild]
  | cons p rest ih =>
      obtain ⟨c', n⟩ := p
      by_cases hc : c' = c
      · subst hc
        simp only [removeChild, if_pos, List.map_cons]
        exact (List.Sublist.refl _).cons _
      · simp only [removeChild, hc, if_false, List.map_cons]
        exact ih.cons₂ c'

theorem nodup_keys_removeChild {cs : List (Char × Node)} (c : Char)
    (h : (cs.map Prod.fst).Nodup) : ((removeChild cs c).map Prod.fst).Nodup :=
  (keys_removeChild_sublist cs c).nodup h

/-! ## Basic unfolding lemmas for the traversals -/

theorem search_nil (n : Node) : search n [] = n.isEndOfWord := rfl

theorem search_cons (n : Node) (c : Char) (w : List Char) :
    search n (c :: w) =
      match getChild n.children c with
      | none => false
      | some m => search m w := by
  cases h : getChild n.children c <;> simp [search, followPath, h]

theorem startsWith_nil (n : Node) : startsWith n [] = true := rfl

theorem startsWith_cons (n : Node) (c : Char) (w : List Char) :
    startsWith n (c :: w) =
      match getChild n.children c with
      | none => false
      | some m => startsWith m w := by
  cases h : getChild n.children c <;> simp [startsWith, followPath, h]

theorem insertW_nil (n : Node) : insertW n [] = .mk n.children true := rfl

theorem insertW_cons (n : Node) (c : Char) (w : List Char) :
    insertW n (c :: w) =
      .mk (setChild n.children c (insertW ((getChild n.children c).getD emptyNode) w))
        n.isEndOfWord := rfl

/-! ## C3: insert then search -/

/-- C3: for every trie state and every string W (the empty string
included), immediately after the single-word insert of W, `search(W)`
returns true. -/
theorem C3_search_after_insert (t : Node) (w : List Char) :
    search (insertW t w) w = true := by
  induction w generalizing t with
  | nil => simp [insertW, search, followPath, Node.isEndOfWord]
  | cons c w ih =>
      rw [insertW_cons, search_cons]
      simp only [Node.children, getChild_setChild_self]
      exact ih _

/-! ## C8: deleting an absent word is a no-op -/

theorem deleteRec_of_search_false {t : Node} {w : List Char}
    (h : search t w = false) : deleteRec t w = (t, false) := by
  induction w generalizing t with
  | nil =>
      rw [search_nil] at h
      simp [deleteRec, h]
  | cons c w ih =>
      rw [search_cons] at h
      cases hg : getChild t.children c with
      | none => simp [deleteRec, hg]
      | some child =>
          rw [hg] at h
          have hrec := ih h
          simp [deleteRec, hg, hrec, setChild_eq_of_getChild hg]
          cases t with
          | mk cs e => rfl

/-- C8: for every trie state and every string W not currently stored as a
complete word (a bare prefix of stored words, or a word whose path does
not exist), `delete(W)` leaves the entire trie state unchanged. -/
theorem C8_delete_absent_noop (t : Node) (w : List Char)
    (h : search t w = false) : deleteW t w = t := by
  rw [deleteW, deleteRec_of_search_false h]

/-- Witness for C8 on a concrete state: "ap" is a bare prefix of the
stored "app", and deleting it changes nothing. -/
theorem C8_delete_absent_noop_witness :
    search (insertW emptyNode ['a', 'p', 'p']) ['a', 'p'] = false ∧
      deleteW (insertW emptyNode ['a', 'p', 'p']) ['a', 'p'] =
        insertW emptyNode ['a', 'p', 'p'] :=
  ⟨by decide, C8_delete_absent_noop _ _ (by decide)⟩

/-! ## C2: the synchronous batch path versus sequential inserts -/

/-- Counterexample to C2 as stated: for `ws = [""]` the synchronous batch
insert silently skips the empty string, while the sequential single-word
insert of the same input marks the root terminal, so the two final states
differ. -/
theorem C2_counterexample :
    insertBatchState emptyNode [[]] = emptyNode ∧
      seqInserts emptyNode [[]] = Node.mk [] true ∧
      insertBatchState emptyNode [[]] ≠ seqInserts emptyNode [[]] :=
  ⟨rfl, rfl, fun h => absurd (congrArg Node.isEndOfWord h) (by decide)⟩

/-- C2 as amended: the synchronous batch path produces exactly the state
of sequential single-word inserts of the *nonempty* elements of the
batch (empty strings inside a batch are silently skipped). -/
theorem C2_batch_eq_seq_of_nonempty (root : Node) (ws : List (List Char)) :
    insertBatchState root ws =
      seqInserts root (ws.filter fun w => decide (0 < w.length)) := by
  induction ws generalizing root with
  | nil => rfl
  | cons w ws ih =>
      by_cases hw : 0 < w.length
      · simp [insertBatchState, seqInserts, List.filter_cons, hw] at ih ⊢
        exact ih _
      · simp [insertBatchState, seqInserts, List.filter_cons, hw] at ih ⊢
        exact ih _

/-! ## C9: the progress callback on the synchronous batch path -/

/-- Counterexample to C9 as stated: a 4-word batch at `chunkSize = 2`
should, per the claim, fire the callback after each of its 2 chunks; the
synchronous path fires it exactly once. -/
theorem C9_counterexample :
    (insertBatchRun emptyNode [['a'], ['b'], ['c'], ['d']] 2 true).2.1.length = 1 ∧
      specChunkCount [['a'], ['b'], ['c'], ['d']].length 2 = 2 ∧
      (1 : Nat) ≠ 2 :=
  ⟨rfl, rfl, by decide⟩

/-- C9 as amended: on the synchronous path the callback is invoked
exactly once, after the whole batch (which is processed as a single unit;
`chunkSize` is ignored), with a single progress-object argument whose
fields are `processed = |ws|`, `total = |ws|`, `percentage = 100`; and
the call resolves to `{ success: true, processed: |ws| }`. -/
theorem C9_sync_progress_and_result (root : Node) (ws : List (List Char))
    (chunkSize : Nat) :
    (insertBatchRun root ws chunkSize true).2.1 = [⟨ws.length, ws.length, 100⟩] ∧
      (insertBatchRun root ws chunkSize true).2.2 = ⟨true, ws.length⟩ ∧
      (insertBatchRun root ws chunkSize true).1 = insertBatchState root ws :=
  ⟨rfl, rfl, rfl⟩

/-! ## C10: query operations do not change the trie state -/

/-- C10: `search`, `startsWith`, `autocomplete`, `fuzzySearch`,
`wildcardSearch`, `countWords` and `listWords` leave the trie state
completely unchanged: erasing them from any operation sequence yields the
same final state. -/
theorem C10_queries_leave_state_unchanged (ops : List Op) (t : Node) :
    runOps t ops = runOps t (ops.filter Op.isMutator) := by
  induction ops generalizing t with
  | nil => rfl
  | cons op ops ih =>
      cases op <;> simp [runOps, applyOp, Op.isMutator, List.filter_cons, ih]

/-! ## Well-formedness and the pruning invariant -/

theorem mem_setChild {cs : List (Char × Node)} {c : Char} {v : Node} {p : Char × Node}
    (h : p ∈ setChild cs c v) : p = (c, v) ∨ p ∈ cs := by
  induction cs with
  | nil => simpa [setChild] using h
  | cons q rest ih =>
      obtain ⟨c', n⟩ := q
      by_cases hc : c' = c
      · subst hc
        rcases (by simpa [setChild] using h : p = (c', v) ∨ p ∈ rest) with h | h
        · exact Or.inl h
        · exact Or.inr (List.mem_cons_of_mem _ h)
      · rcases (by simpa [setChild, hc] using h : p = (c', n) ∨ p ∈ setChild rest c v) with h | h
        · exact Or.inr (by simp [h])
        · rcases ih h with h | h
          · exact Or.inl h
          · exact Or.inr (List.mem_cons_of_mem _ h)

theorem setChild_mem_self (cs : List (Char × Node)) (c : Char) (v : Node) :
    (c, v) ∈ setChild cs c v := by
  induction cs with
  | nil => simp [setChild]
  | cons q rest ih =>
      obtain ⟨c', n⟩ := q
      by_cases hc : c' = c
      · simp [setChild, hc]
      · simpa [setChild, hc] using Or.inr ih

theorem mem_removeChild {cs : List (Char × Node)} {c : Char} {p : Char × Node}
    (h : p ∈ removeChild cs c) : p ∈ cs := by
  induction cs with
  | nil => simp [removeChild] at h
  | cons q rest ih =>
      obtain ⟨c', n⟩ := q
      by_cases hc : c' = c
      · exact List.mem_cons_of_mem _ (by simpa [removeChild, hc] using h)
      · rcases (by simpa [removeChild, hc] using h : p = (c', n) ∨ p ∈ removeChild rest c) with h | h
        · simp [h]
        · exact List.mem_cons_of_mem _ (ih h)

theorem removeChild_eq_nil {cs : List (Char × Node)} {c : Char}
    (h : removeChild cs c = []) : cs = [] ∨ ∃ n, cs = [(c, n)] := by
  induction cs with
  | nil => exact Or.inl rfl
  | cons q rest ih =>
      obtain ⟨c', n⟩ := q
      by_cases hc : c' = c
      · subst hc
        simp only [removeChild, if_pos] at h
        exact Or.inr ⟨n, by rw [h]⟩
      · simp [removeChild, hc] at h

theorem wfAll_iff (cs : List (Char × Node)) : wfAll cs ↔ ∀ p ∈ cs, wfNode p.2 := by
  induction cs with
  | nil => simp [wfAll]
  | cons q rest ih =>
      obtain ⟨c, n⟩ := q
      simp [wfAll, ih]

theorem prunedAll_iff (cs : List (Char × Node)) :
    prunedAll cs ↔ ∀ p ∈ cs, hasWord p.2 = true ∧ pruned p.2 := by
  induction cs with
  | nil => simp [prunedAll]
  | cons q rest ih =>
      obtain ⟨c, n⟩ := q
      simp [prunedAll, ih]
      tauto

theorem hasWordAll_iff (cs : List (Char × Node)) :
    hasWordAll cs = true ↔ ∃ p ∈ cs, hasWord p.2 = true := by
  induction cs with
  | nil => simp [hasWordAll]
  | cons q rest ih =>
      obtain ⟨c, n⟩ := q
      simp [hasWordAll, ih]

theorem wfNode_mk (cs : List (Char × Node)) (e : Bool) :
    wfNode (.mk cs e) ↔ (cs.map Prod.fst).Nodup ∧ wfAll cs := Iff.rfl

theorem pruned_mk (cs : List (Char × Node)) (e : Bool) :
    pruned (.mk cs e) ↔ prunedAll cs := Iff.rfl

theorem hasWord_mk (cs : List (Char × Node)) (e : Bool) :
    hasWord (.mk cs e) = (e || hasWordAll cs) := rfl

theorem wfNode_emptyNode : wfNode emptyNode := ⟨by simp, trivial⟩

theorem pruned_emptyNode : pruned emptyNode := trivial

theorem wfNode_insertW {t : Node} (w : List Char) (h : wfNode t) :
    wfNode (insertW t w) := by
  induction w generalizing t with
  | nil =>
      cases t with
      | mk cs e => exact h
  | cons c w ih =>
      cases t with
      | mk cs e =>
          obtain ⟨hnd, hall⟩ := h
          refine ⟨nodup_keys_setChild c _ hnd, ?_⟩
          rw [wfAll_iff]
          intro p hp
          rcases mem_setChild hp with rfl | hp
          · refine ih ?_
            cases hg : getChild cs c with
            | none => simpa [Node.children, hg] using wfNode_emptyNode
            | some m =>
                simpa [Node.children, hg] using (wfAll_iff cs).1 hall _ (getChild_mem hg)
          · exact (wfAll_iff cs).1 hall _ hp

theorem hasWord_insertW (t : Node) (w : List Char) : hasWord (insertW t w) = true := by
  induction w generalizing t with
  | nil =>
      cases t with
      | mk cs e => simp [insertW, Node.children, hasWord_mk]
  | cons c w ih =>
      cases t with
      | mk cs e =>
          rw [insertW_cons]
          simp only [hasWord_mk, Bool.or_eq_true]
          refine Or.inr ((hasWordAll_iff _).2 ⟨(c, _), setChild_mem_self _ c _, ih _⟩)

theorem pruned_insertW {t : Node} (w : List Char) (h : pruned t) :
    pruned (insertW t w) := by
  induction w generalizing t with
  | nil =>
      cases t with
      | mk cs e => exact h
  | cons c w ih =>
      cases t with
      | mk cs e =>
          rw [insertW_cons, pruned_mk, prunedAll_iff]
          intro p hp
          rcases mem_setChild hp with rfl | hp
          · refine ⟨hasWord_insertW _ _, ih ?_⟩
            cases hg : getChild cs c with
            | none => simpa [Node.children, hg] using pruned_emptyNode
            | some m =>
                simpa [Node.children, hg] using ((prunedAll_iff cs).1 h _ (getChild_mem hg)).2
          · exact (prunedAll_iff cs).1 h _ hp


theorem deleteRec_nil (cs : List (Char × Node)) (e : Bool) :
    deleteRec (.mk cs e) [] =
      if e then (.mk cs false, cs.isEmpty) else (.mk cs e, false) := by
  cases e <;> simp [deleteRec, Node.isEndOfWord, Node.children]

theorem deleteRec_cons (cs : List (Char × Node)) (e : Bool) (c : Char) (w : List Char) :
    deleteRec (.mk cs e) (c :: w) =
      match getChild cs c with
      | none => (.mk cs e, false)
      | some child =>
          if (deleteRec child w).2 then
            (.mk (removeChild cs c) e, !e && (removeChild cs c).isEmpty)
          else (.mk (setChild cs c (deleteRec child w).1) e, false) := by
  cases hg : getChild cs c <;> simp [deleteRec, Node.children, Node.isEndOfWord, hg]

theorem wfNode_deleteRec {t : Node} (w : List Char) (h : wfNode t) :
    wfNode (deleteRec t w).1 := by
  induction w generalizing t with
  | nil =>
      cases t with
      | mk cs e =>
          rw [deleteRec_nil]
          cases e <;> simpa using h
  | cons c w ih =>
      cases t with
      | mk cs e =>
          obtain ⟨hnd, hall⟩ := h
          rw [deleteRec_cons]
          cases hg : getChild cs c with
          | none => exact ⟨hnd, hall⟩
          | some child =>
              have hwfc : wfNode child := (wfAll_iff cs).1 hall _ (getChild_mem hg)
              cases hr : (deleteRec child w).2 with
              | true =>
                  simp only [hr, if_true]
                  refine ⟨nodup_keys_removeChild c hnd, ?_⟩
                  exact (wfAll_iff _).2 fun p hp => (wfAll_iff cs).1 hall _ (mem_removeChild hp)
              | false =>
                  simp only [hr, Bool.false_eq_true, if_false]
                  refine ⟨nodup_keys_setChild c _ hnd, ?_⟩
                  refine (wfAll_iff _).2 fun p hp => ?_
                  rcases mem_setChild hp with rfl | hp
                  · exact ih hwfc
                  · exact (wfAll_iff cs).1 hall _ hp

theorem deleteRec_pruned {t : Node} (w : List Char) (h : pruned t) :
    pruned (deleteRec t w).1 ∧
      ((deleteRec t w).2 = false → hasWord t = true → hasWord (deleteRec t w).1 = true) := by
  induction w generalizing t with
  | nil =>
      cases t with
      | mk cs e =>
          rw [deleteRec_nil]
          cases e with
          | false => exact ⟨h, fun _ hw => hw⟩
          | true =>
              simp only [if_true]
              refine ⟨h, fun hb _ => ?_⟩
              cases cs with
              | nil => simp at hb
              | cons q qs =>
                  rw [hasWord_mk]
                  have hq := ((prunedAll_iff _).1 h q (List.mem_cons_self q qs)).1
                  have : hasWordAll (q :: qs) = true :=
                    (hasWordAll_iff _).2 ⟨q, List.mem_cons_self q qs, hq⟩
                  simp [this]
  | cons c w ih =>
      cases t with
      | mk cs e =>
          rw [deleteRec_cons]
          cases hg : getChild cs c with
          | none => exact ⟨h, fun _ hw => hw⟩
          | some child =>
              have hpc := (prunedAll_iff cs).1 h _ (getChild_mem hg)
              cases hr : (deleteRec child w).2 with
              | true =>
                  simp only [hr, if_true]
                  constructor
                  · exact (prunedAll_iff _).2 fun p hp =>
                      (prunedAll_iff cs).1 h _ (mem_removeChild hp)
                  · intro hb _
                    rw [hasWord_mk]
                    cases e with
                    | true => simp
                    | false =>
                        simp only [Bool.not_false, Bool.true_and] at hb
                        cases hrm : removeChild cs c with
                        | nil => simp [hrm] at hb
                        | cons q qs =>
                            have hq : q ∈ cs := mem_removeChild (hrm ▸ List.mem_cons_self q qs)
                            have hw := ((prunedAll_iff cs).1 h q hq).1
                            have hall : hasWordAll (q :: qs) = true :=
                              (hasWordAll_iff _).2 ⟨q, List.mem_cons_self q qs, hw⟩
                            simp [hrm, hall]
              | false =>
                  simp only [hr, Bool.false_eq_true, if_false]
                  have hikill := ih hpc.2
                  have hwkeep : hasWord (deleteRec child w).1 = true :=
                    hikill.2 hr hpc.1
                  constructor
                  · refine (prunedAll_iff _).2 fun p hp => ?_
                    rcases mem_setChild hp with rfl | hp
                    · exact ⟨hwkeep, hikill.1⟩
                    · exact (prunedAll_iff cs).1 h _ hp
                  · intro _ _
                    rw [hasWord_mk]
                    have : hasWordAll (setChild cs c (deleteRec child w).1) = true :=
                      (hasWordAll_iff _).2 ⟨_, setChild_mem_self _ _ _, hwkeep⟩
                    simp [this]

theorem reachable_wf_pruned {t : Node} (h : Reachable t) : wfNode t ∧ pruned t := by
  induction h with
  | empty => exact ⟨wfNode_emptyNode, pruned_emptyNode⟩
  | ins w _ ih => exact ⟨wfNode_insertW w ih.1, pruned_insertW w ih.2⟩
  | del w _ ih => exact ⟨wfNode_deleteRec w ih.1, (deleteRec_pruned w ih.2).1⟩

/-! ## C5: the structural invariant over reachable states -/

/-- C5: in every trie state reachable from the empty trie by inserts and
deletes, every node other than the root is terminal or a strict ancestor
of a terminal node (equivalently, every child subtree contains a terminal
node); insert preserves the invariant and delete re-establishes it by
pruning. -/
theorem C5_reachable_invariant (t : Node) (h : Reachable t) : pruned t :=
  (reachable_wf_pruned h).2

/-- Witness for C5 at a concrete reachable state: insert "app" and "ap",
then delete "app"; the resulting pruned state satisfies the invariant. -/
theorem C5_reachable_invariant_witness :
    pruned (deleteW (insertW (insertW emptyNode ['a', 'p', 'p']) ['a', 'p']) ['a', 'p', 'p']) :=
  C5_reachable_invariant _
    (Reachable.del _ (Reachable.ins _ (Reachable.ins _ Reachable.empty)))

/-! ## C4: delete removes exactly the target word -/

theorem deleteRec_killed {t : Node} {w : List Char}
    (h : (deleteRec t w).2 = true) : ∀ v, v ≠ w → search t v = false := by
  induction w generalizing t with
  | nil =>
      cases t with
      | mk cs e =>
          rw [deleteRec_nil] at h
          cases e with
          | false => simp at h
          | true =>
              have hcs : cs = [] := by
                cases cs with
                | nil => rfl
                | cons q qs => simp at h
              subst hcs
              intro v hv
              cases v with
              | nil => exact absurd rfl hv
              | cons a v => simp [search_cons, Node.children, getChild]
  | cons c w ih =>
      cases t with
      | mk cs e =>
          rw [deleteRec_cons] at h
          cases hg : getChild cs c with
          | none => simp [hg] at h
          | some child =>
              simp only [hg] at h
              cases hr : (deleteRec child w).2 with
              | false => simp [hr] at h
              | true =>
                  simp only [hr, if_true, Bool.and_eq_true, Bool.not_eq_true',
                    List.isEmpty_iff] at h
                  obtain ⟨he, hrm⟩ := h
                  rcases removeChild_eq_nil hrm with hnil | ⟨n₀, hcs⟩
                  · rw [hnil] at hg; simp [getChild] at hg
                  · have hn₀ : n₀ = child := by
                      rw [hcs] at hg
                      simpa [getChild] using hg
                    subst hn₀ hcs he
                    intro v hv
                    cases v with
                    | nil => simp [search_nil, Node.isEndOfWord]
                    | cons a v =>
                        by_cases hac : a = c
                        · subst hac
                          have hvw : v ≠ w := fun hh => hv (by rw [hh])
                          simp [search_cons, Node.children, getChild, ih hr v hvw]
                        · simp [search_cons, Node.children, getChild, Ne.symm hac]

theorem search_deleteW_self {t : Node} (hwf : wfNode t) (w : List Char) :
    search (deleteW t w) w = false := by
  induction w generalizing t with
  | nil =>
      cases t with
      | mk cs e =>
          rw [deleteW, deleteRec_nil]
          cases e <;> simp [search_nil, Node.isEndOfWord]
  | cons c w ih =>
      cases t with
      | mk cs e =>
          rw [deleteW, deleteRec_cons]
          cases hg : getChild cs c with
          | none => simp [search_cons, Node.children, hg]
          | some child =>
              simp only [hg]
              have hwfc : wfNode child := (wfAll_iff cs).1 hwf.2 _ (getChild_mem hg)
              cases hr : (deleteRec child w).2 with
              | true =>
                  simp only [hr, if_true]
                  have hnone : getChild (removeChild cs c) c = none :=
                    getChild_removeChild_self hwf.1
                  simp [search_cons, Node.children, hnone]
              | false =>
                  simp only [hr, Bool.false_eq_true, if_false]
                  have hik := ih hwfc
                  rw [deleteW] at hik
                  simp [search_cons, Node.children, getChild_setChild_self, hik]

theorem search_deleteW_other {t : Node} (hwf : wfNode t) (w : List Char) :
    ∀ v, v ≠ w → search (deleteW t w) v = search t v := by
  induction w generalizing t with
  | nil =>
      cases t with
      | mk cs e =>
          rw [deleteW, deleteRec_nil]
          cases e with
          | false => simp
          | true =>
              intro v hv
              cases v with
              | nil => exact absurd rfl hv
              | cons a v => simp [search_cons, Node.children]
  | cons c w ih =>
      cases t with
      | mk cs e =>
          rw [deleteW, deleteRec_cons]
          cases hg : getChild cs c with
          | none => simp
          | some child =>
              simp only [hg]
              have hwfc : wfNode child := (wfAll_iff cs).1 hwf.2 _ (getChild_mem hg)
              intro v hv
              cases hr : (deleteRec child w).2 with
              | true =>
                  simp only [hr, if_true]
                  cases v with
                  | nil => simp [search_nil, Node.isEndOfWord]
                  | cons a v =>
                      by_cases hac : a = c
                      · subst hac
                        have hvw : v ≠ w := fun hh => hv (by rw [hh])
                        have hnone : getChild (removeChild cs a) a = none :=
                          getChild_removeChild_self hwf.1
                        have hkill := deleteRec_killed hr v hvw
                        simp [search_cons, Node.children, hnone, hg, hkill]
                      · have heq : getChild (removeChild cs c) a = getChild cs a :=
                          getChild_removeChild_ne cs hac
                        simp [search_cons, Node.children, heq]
              | false =>
                  simp only [hr, Bool.false_eq_true, if_false]
                  cases v with
                  | nil => simp [search_nil, Node.isEndOfWord]
                  | cons a v =>
                      by_cases hac : a = c
                      · subst hac
                        have hvw : v ≠ w := fun hh => hv (by rw [hh])
                        have hik := ih hwfc v hvw
                        rw [deleteW] at hik
                        simp [search_cons, Node.children, getChild_setChild_self, hg, hik]
                      · have heq : getChild (setChild cs c (deleteRec child w).1) a =
                            getChild cs a := getChild_setChild_ne cs _ hac
                        simp [search_cons, Node.children, heq]

/-- C4: deleting a stored word makes it unsearchable and leaves the
`search` result of every other word unchanged (in particular, deleting a
strict prefix of another stored word keeps the longer word searchable via
the shared path nodes). -/
theorem C4_delete_exact (t : Node) (w : List Char) (hr : Reachable t)
    (_hs : search t w = true) :
    search (deleteW t w) w = false ∧
      ∀ v, v ≠ w → search (deleteW t w) v = search t v := by
  have hwf := (reachable_wf_pruned hr).1
  exact ⟨search_deleteW_self hwf w, search_deleteW_other hwf w⟩

/-- Witness for C4: insert "app" and "apple", delete "app"; "app" is gone
and "apple" is unaffected. -/
theorem C4_delete_exact_witness :
    Reachable (insertW (insertW emptyNode ['a', 'p', 'p']) ['a', 'p', 'p', 'l', 'e']) ∧
      search (insertW (insertW emptyNode ['a', 'p', 'p']) ['a', 'p', 'p', 'l', 'e'])
        ['a', 'p', 'p'] = true ∧
      (search (deleteW (insertW (insertW emptyNode ['a', 'p', 'p'])
          ['a', 'p', 'p', 'l', 'e']) ['a', 'p', 'p']) ['a', 'p', 'p'] = false ∧
        ∀ v, v ≠ ['a', 'p', 'p'] →
          search (deleteW (insertW (insertW emptyNode ['a', 'p', 'p'])
            ['a', 'p', 'p', 'l', 'e']) ['a', 'p', 'p']) v =
          search (insertW (insertW emptyNode ['a', 'p', 'p']) ['a', 'p', 'p', 'l', 'e']) v) :=
  ⟨Reachable.ins _ (Reachable.ins _ Reachable.empty), by decide,
    C4_delete_exact _ _ (Reachable.ins _ (Reachable.ins _ Reachable.empty)) (by decide)⟩

/-! ## Enumeration versus search -/

theorem getChild_of_mem_nodup {cs : List (Char × Node)} {c : Char} {child : Node}
    (h : (c, child) ∈ cs) (hnd : (cs.map Prod.fst).Nodup) :
    getChild cs c = some child := by
  induction cs with
  | nil => simp at h
  | cons q rest ih =>
      obtain ⟨c', n⟩ := q
      simp only [List.map_cons, List.nodup_cons] at hnd
      rcases List.mem_cons.1 h with h | h
      · simp only [Prod.mk.injEq] at h
        obtain ⟨rfl, rfl⟩ := h
        simp [getChild]
      · by_cases hc : c' = c
        · subst hc
          exact absurd (by simpa using List.mem_map_of_mem Prod.fst h) hnd.1
        · simp [getChild, hc, ih h hnd.2]

mutual

theorem mem_collect : ∀ (n : Node) (path w : List Char), wfNode n →
    (w ∈ collect n path ↔ ∃ s, w = path ++ s ∧ search n s = true)
  | .mk cs e, path, w, hwf => by
      rw [collect]
      constructor
      · intro hm
        rcases List.mem_append.1 hm with hm | hm
        · refine ⟨[], ?_, ?_⟩
          · cases e with
            | false => simp at hm
            | true => simpa using hm
          · cases e with
            | true => simp [search_nil, Node.isEndOfWord]
            | false => simp at hm
        · obtain ⟨p, hp, s, rfl, hs⟩ := (mem_collectAll cs path w hwf.2).1 hm
          refine ⟨p.1 :: s, rfl, ?_⟩
          rw [search_cons]
          simp only [Node.children]
          rw [getChild_of_mem_nodup (by simpa using hp) hwf.1]
          exact hs
      · rintro ⟨s, rfl, hs⟩
        cases s with
        | nil =>
            have : e = true := by simpa [search_nil, Node.isEndOfWord] using hs
            simp [this]
        | cons c s =>
            rw [search_cons] at hs
            simp only [Node.children] at hs
            cases hg : getChild cs c with
            | none => rw [hg] at hs; simp at hs
            | some child =>
                rw [hg] at hs
                refine List.mem_append.2 (Or.inr ?_)
                exact (mem_collectAll cs path _ hwf.2).2
                  ⟨(c, child), getChild_mem hg, s, rfl, hs⟩

theorem mem_collectAll : ∀ (cs : List (Char × Node)) (path w : List Char), wfAll cs →
    (w ∈ collectAll cs path ↔
      ∃ p ∈ cs, ∃ s, w = path ++ p.1 :: s ∧ search p.2 s = true)
  | [], path, w, _ => by simp [collectAll]
  | (c, child) :: rest, path, w, hwf => by
      rw [collectAll]
      constructor
      · intro hm
        rcases List.mem_append.1 hm with hm | hm
        · obtain ⟨s, hws, hs⟩ := (mem_collect child (path ++ [c]) w hwf.1).1 hm
          exact ⟨(c, child), by simp, s, by simpa using hws, hs⟩
        · obtain ⟨p, hp, s, hws, hs⟩ := (mem_collectAll rest path w hwf.2).1 hm
          exact ⟨p, List.mem_cons_of_mem _ hp, s, hws, hs⟩
      · rintro ⟨p, hp, s, rfl, hs⟩
        rcases List.mem_cons.1 hp with rfl | hp
        · exact List.mem_append.2 (Or.inl
            ((mem_collect child (path ++ [c]) _ hwf.1).2 ⟨s, by simp, hs⟩))
        · exact List.mem_append.2 (Or.inr
            ((mem_collectAll rest path _ hwf.2).2 ⟨p, hp, s, rfl, hs⟩))

end

mutual

theorem hasWord_exists : ∀ (n : Node), wfNode n → hasWord n = true →
    ∃ s, search n s = true
  | .mk cs e, hwf, h => by
      rw [hasWord_mk] at h
      rcases Bool.or_eq_true_iff.1 h with he | hall
      · exact ⟨[], by simp [search_nil, Node.isEndOfWord, he]⟩
      · obtain ⟨c, child, hmem, s, hs⟩ := hasWordAll_exists cs hwf.2 hall
        have hg : getChild cs c = some child := getChild_of_mem_nodup hmem hwf.1
        exact ⟨c :: s, by simp [search_cons, Node.children, hg, hs]⟩

theorem hasWordAll_exists : ∀ (cs : List (Char × Node)), wfAll cs →
    hasWordAll cs = true → ∃ c child, (c, child) ∈ cs ∧ ∃ s, search child s = true
  | [], _, h => by simp [hasWordAll] at h
  | (c, child) :: rest, hwf, h => by
      rw [hasWordAll] at h
      rcases Bool.or_eq_true_iff.1 h with hc | hrest
      · obtain ⟨s, hs⟩ := hasWord_exists child hwf.1 hc
        exact ⟨c, child, by simp, s, hs⟩
      · obtain ⟨c', child', hmem, s, hs⟩ := hasWordAll_exists rest hwf.2 hrest
        exact ⟨c', child', List.mem_cons_of_mem _ hmem, s, hs⟩

end

theorem followPath_append (t : Node) (p s : List Char) :
    followPath t (p ++ s) =
      match followPath t p with
      | none => none
      | some m => followPath m s := by
  induction p generalizing t with
  | nil => simp [followPath]
  | cons c p ih =>
      show followPath t (c :: (p ++ s)) = _
      rw [followPath]
      cases hg : getChild t.children c with
      | none => simp [followPath, hg]
      | some child => simpa [followPath, hg] using ih child

theorem search_append (t : Node) (p s : List Char) :
    search t (p ++ s) =
      match followPath t p with
      | none => false
      | some m => search m s := by
  rw [search, followPath_append]
  cases followPath t p with
  | none => rfl
  | some m => rfl

theorem followPath_pruned {t : Node} {p : List Char} {n : Node}
    (hpr : pruned t) (h : followPath t p = some n) :
    pruned n ∧ (p ≠ [] → hasWord n = true) := by
  induction p generalizing t with
  | nil =>
      refine ⟨by simpa using (by injection h : t = n) ▸ hpr, fun hne => absurd rfl hne⟩
  | cons c p ih =>
      rw [followPath] at h
      cases hg : getChild t.children c with
      | none => rw [hg] at h; exact absurd h (by simp)
      | some child =>
          rw [hg] at h
          cases t with
          | mk cs e =>
              have hmem := getChild_mem (by simpa [Node.children] using hg)
              have hc := (prunedAll_iff cs).1 hpr _ hmem
              obtain ⟨hpn, hwn⟩ := ih hc.2 h
              refine ⟨hpn, fun _ => ?_⟩
              cases p with
              | nil =>
                  have : child = n := by injection h
                  exact this ▸ hc.1
              | cons d p => exact hwn (by simp)

theorem followPath_wf {t : Node} {p : List Char} {n : Node}
    (hwf : wfNode t) (h : followPath t p = some n) : wfNode n := by
  induction p generalizing t with
  | nil => exact (by injection h : t = n) ▸ hwf
  | cons c p ih =>
      rw [followPath] at h
      cases hg : getChild t.children c with
      | none => rw [hg] at h; exact absurd h (by simp)
      | some child =>
          rw [hg] at h
          cases t with
          | mk cs e =>
              have hmem := getChild_mem (by simpa [Node.children] using hg)
              exact ih ((wfAll_iff cs).1 hwf.2 _ hmem) h

/-! ## C6: startsWith versus stored words -/

/-- Counterexample to C6 as stated: on the empty trie `startsWith("")`
returns true although no stored word (there are none) has `""` as a
prefix. -/
theorem C6_counterexample :
    ¬ (startsWith emptyNode [] = true ↔ ∃ w ∈ listWords emptyNode, [] <+: w) := by
  intro h
  have : ∃ w ∈ listWords emptyNode, [] <+: w := h.1 rfl
  simp [listWords, collect, collectAll, emptyNode] at this

/-- C6 as amended: on every reachable trie state, `startsWith(P)` returns
true iff `P` is empty (the root always exists) or some currently stored
word has `P` as a literal prefix (`P` itself included). -/
theorem C6_startsWith_iff (t : Node) (p : List Char) (hr : Reachable t) :
    startsWith t p = true ↔ (p = [] ∨ ∃ w ∈ listWords t, p <+: w) := by
  obtain ⟨hwf, hpr⟩ := reachable_wf_pruned hr
  constructor
  · intro h
    cases hp : p with
    | nil => exact Or.inl rfl
    | cons c p' =>
        refine Or.inr ?_
        subst hp
        rw [startsWith] at h
        cases hf : followPath t (c :: p') with
        | none => rw [hf] at h; simp at h
        | some n =>
            have hword : hasWord n = true :=
              (followPath_pruned hpr hf).2 (by simp)
            obtain ⟨s, hs⟩ := hasWord_exists n (followPath_wf hwf hf) hword
            refine ⟨(c :: p') ++ s, ?_, ⟨s, rfl⟩⟩
            rw [listWords]
            refine (mem_collect t [] _ hwf).2 ⟨(c :: p') ++ s, by simp, ?_⟩
            rw [search_append, hf]
            exact hs
  · rintro (rfl | ⟨w, hw, s, rfl⟩)
    · rfl
    · obtain ⟨s', h1, h2⟩ := (mem_collect t [] _ hwf).1 hw
      have hs : search t (p ++ s) = true := by
        have heq : p ++ s = s' := by simpa using h1
        rw [heq]
        exact h2
      rw [search_append] at hs
      cases hf : followPath t p with
      | none => rw [hf] at hs; simp at hs
      | some m => simp [startsWith, hf]

/-- Witness for C6 at a concrete reachable state. -/
theorem C6_startsWith_iff_witness :
    Reachable (insertW emptyNode ['a', 'b']) ∧
      (startsWith (insertW emptyNode ['a', 'b']) ['a'] = true ↔
        (['a'] = [] ∨ ∃ w ∈ listWords (insertW emptyNode ['a', 'b']), ['a'] <+: w)) :=
  ⟨Reachable.ins _ Reachable.empty,
    C6_startsWith_iff _ _ (Reachable.ins _ Reachable.empty)⟩

/-! ## C7: wildcard search -/

theorem wildFind_eq (cs : List (Char × Node)) (ch : Char) (rest path : List Char) :
    wildFind cs ch rest path =
      match getChild cs ch with
      | none => []
      | some child => wildDfs child rest (path ++ [ch]) := by
  induction cs with
  | nil => simp [wildFind, getChild]
  | cons q qs ih =>
      obtain ⟨c, child⟩ := q
      by_cases hc : c = ch
      · subst hc
        simp [wildFind, getChild]
      · simp [wildFind, getChild, hc, ih]

mutual

theorem mem_wildDfs : ∀ (n : Node) (pat path w : List Char), wfNode n →
    (w ∈ wildDfs n pat path ↔
      ∃ s, w = path ++ s ∧ search n s = true ∧ patMatch s pat = true)
  | n, [], path, w, _ => by
      rw [wildDfs]
      constructor
      · intro hm
        cases he : n.isEndOfWord with
        | false => rw [he] at hm; simp at hm
        | true =>
            rw [he] at hm
            refine ⟨[], by simpa using hm, by simp [search_nil, he], by simp [patMatch]⟩
      · rintro ⟨s, rfl, hs, hp⟩
        cases s with
        | nil =>
            rw [search_nil] at hs
            simp [hs]
        | cons a s => simp [patMatch] at hp
  | .mk cs e, ch :: rest, path, w, hwf => by
      rw [wildDfs]
      by_cases hdot : ch = '.'
      · subst hdot
        rw [if_pos rfl]
        rw [mem_wildAll cs rest path w hwf.2]
        constructor
        · rintro ⟨p, hp, s, rfl, hs, hm⟩
          refine ⟨p.1 :: s, rfl, ?_, ?_⟩
          · rw [search_cons]
            simp only [Node.children]
            rw [getChild_of_mem_nodup (by simpa using hp) hwf.1]
            exact hs
          · simp [patMatch, hm]
        · rintro ⟨s, rfl, hs, hm⟩
          cases s with
          | nil => simp [patMatch] at hm
          | cons a s =>
              rw [search_cons] at hs
              simp only [Node.children] at hs
              cases hg : getChild cs a with
              | none => rw [hg] at hs; simp at hs
              | some child =>
                  rw [hg] at hs
                  refine ⟨(a, child), getChild_mem hg, s, rfl, hs, ?_⟩
                  simpa [patMatch] using hm
      · simp only [hdot, if_false]
        rw [wildFind_eq]
        constructor
        · intro hm
          cases hg : getChild cs ch with
          | none => rw [hg] at hm; simp at hm
          | some child =>
              rw [hg] at hm
              have hwfc : wfNode child :=
                (wfAll_iff cs).1 hwf.2 _ (getChild_mem hg)
              obtain ⟨s, rfl, hs, hp⟩ := (mem_wildDfs child rest (path ++ [ch]) w hwfc).1 hm
              refine ⟨ch :: s, by simp, ?_, ?_⟩
              · rw [search_cons]
                simp only [Node.children]
                rw [hg]
                exact hs
              · simp [patMatch, hp]
        · rintro ⟨s, rfl, hs, hp⟩
          cases s with
          | nil => simp [patMatch] at hp
          | cons a s =>
              have hac : a = ch := by
                rcases (by simpa [patMatch] using hp :
                    (ch = '.' ∨ a = ch) ∧ patMatch s rest = true).1 with h | h
                · exact absurd h hdot
                · exact h
              subst hac
              rw [search_cons] at hs
              simp only [Node.children] at hs
              cases hg : getChild cs a with
              | none => rw [hg] at hs; simp at hs
              | some child =>
                  rw [hg] at hs
                  have hwfc : wfNode child :=
                    (wfAll_iff cs).1 hwf.2 _ (getChild_mem hg)
                  show path ++ a :: s ∈ wildDfs child rest (path ++ [a])
                  refine (mem_wildDfs child rest (path ++ [a]) _ hwfc).2 ⟨s, by simp, hs, ?_⟩
                  simpa [patMatch] using hp

theorem mem_wildAll : ∀ (cs : List (Char × Node)) (pat path w : List Char), wfAll cs →
    (w ∈ wildAll cs pat path ↔
      ∃ p ∈ cs, ∃ s, w = path ++ p.1 :: s ∧ search p.2 s = true ∧ patMatch s pat = true)
  | [], pat, path, w, _ => by simp [wildAll]
  | (c, child) :: rest, pat, path, w, hwf => by
      rw [wildAll]
      constructor
      · intro hm
        rcases List.mem_append.1 hm with hm | hm
        · obtain ⟨s, hws, hs, hp⟩ := (mem_wildDfs child pat (path ++ [c]) w hwf.1).1 hm
          exact ⟨(c, child), by simp, s, by simpa using hws, hs, hp⟩
        · obtain ⟨p, hp, s, hws, hs, hpm⟩ := (mem_wildAll rest pat path w hwf.2).1 hm
          exact ⟨p, List.mem_cons_of_mem _ hp, s, hws, hs, hpm⟩
      · rintro ⟨p, hp, s, rfl, hs, hpm⟩
        rcases List.mem_cons.1 hp with rfl | hp
        · exact List.mem_append.2 (Or.inl
            ((mem_wildDfs child pat (path ++ [c]) _ hwf.1).2 ⟨s, by simp, hs, hpm⟩))
        · exact List.mem_append.2 (Or.inr
            ((mem_wildAll rest pat path _ hwf.2).2 ⟨p, hp, s, rfl, hs, hpm⟩))

end

/-- C7: on every reachable trie state, `wildcardSearch(P)` returns
exactly the currently stored words of the same length as `P` that agree
with `P` at every literal position, `'.'` matching any single character
(in particular the result is empty when no stored word matches). -/
theorem C7_wildcard_exact (t : Node) (pat : List Char) (hr : Reachable t) :
    ∀ w, w ∈ wildcardSearch t pat ↔ (search t w = true ∧ patMatch w pat = true) := by
  intro w
  have hwf := (reachable_wf_pruned hr).1
  rw [wildcardSearch, mem_wildDfs t pat [] w hwf]
  constructor
  · rintro ⟨s, rfl, hs, hp⟩
    simpa using ⟨hs, hp⟩
  · rintro ⟨hs, hp⟩
    exact ⟨w, by simp, hs, hp⟩

/-- Witness for C7: stored {"apple", "app"}, pattern "app.."; only
"apple" matches. -/
theorem C7_wildcard_exact_witness :
    Reachable (insertW (insertW emptyNode
      ['a', 'p', 'p', 'l', 'e']) ['a', 'p', 'p']) ∧
      (['a', 'p', 'p', 'l', 'e'] ∈ wildcardSearch
          (insertW (insertW emptyNode ['a', 'p', 'p', 'l', 'e']) ['a', 'p', 'p'])
          ['a', 'p', 'p', '.', '.'] ↔
        (search (insertW (insertW emptyNode ['a', 'p', 'p', 'l', 'e']) ['a', 'p', 'p'])
            ['a', 'p', 'p', 'l', 'e'] = true ∧
          patMatch ['a', 'p', 'p', 'l', 'e'] ['a', 'p', 'p', '.', '.'] = true)) :=
  ⟨Reachable.ins _ (Reachable.ins _ Reachable.empty),
    C7_wildcard_exact _ _ (Reachable.ins _ (Reachable.ins _ Reachable.empty)) _⟩

/-! ## Levenshtein distance: basic recurrences -/

theorem lev_nil_left (ys : List Char) : lev [] ys = ys.length := by
  cases ys <;> simp [lev]

theorem lev_nil_right (xs : List Char) : lev xs [] = xs.length := by
  cases xs <;> simp [lev]

theorem lev_cons_cons (x y : Char) (xs ys : List Char) :
    lev (x :: xs) (y :: ys) =
      min (lev xs (y :: ys) + 1) (min (lev (x :: xs) ys + 1) (lev xs ys + subCost x y)) := by
  simp [lev]

theorem subCost_comm (x y : Char) : subCost x y = subCost y x := by
  unfold subCost
  rcases eq_or_ne x y with h | h
  · simp [h]
  · simp [h, h.symm]

theorem subCost_le_one (x y : Char) : subCost x y ≤ 1 := by
  unfold subCost
  split <;> omega

/-- The minimum-shuffle identity behind the two ways of expanding the
Levenshtein recurrence one step in each argument. -/
theorem min_grid (A1 A2 A3 A4 A5 A6 A7 A8 A9 cab cxy : Nat) :
    min (min (A1 + 1) (min (A2 + 1) (A3 + cxy)) + 1)
      (min (min (A4 + 1) (min (A5 + 1) (A6 + cxy)) + 1)
        (min (A7 + 1) (min (A8 + 1) (A9 + cxy)) + cab)) =
    min (min (A1 + 1) (min (A4 + 1) (A7 + cab)) + 1)
      (min (min (A2 + 1) (min (A5 + 1) (A8 + cab)) + 1)
        (min (A3 + 1) (min (A6 + 1) (A9 + cab)) + cxy)) := by
  simp only [← min_add_add_right]
  apply le_antisymm
  · simp only [le_min_iff, min_le_iff]
    omega
  · simp only [le_min_iff, min_le_iff]
    omega

/-- The "last character" recurrence of the Levenshtein distance: the
recurrence the trie DP applies when both strings grow at the end. -/
theorem lev_append_append : ∀ (xs ys : List Char) (x y : Char),
    lev (xs ++ [x]) (ys ++ [y]) =
      min (lev xs (ys ++ [y]) + 1)
        (min (lev (xs ++ [x]) ys + 1) (lev xs ys + subCost x y))
  | [], [], x, y => by
      simp only [List.nil_append]
      rw [lev_cons_cons]
  | [], b :: bs, x, y => by
      have h1 := lev_append_append [] bs x y
      simp only [List.nil_append] at h1
      simp only [List.nil_append, List.cons_append, lev_cons_cons, lev_nil_left, lev_nil_right,
        List.length_cons, List.length_append, List.length_nil, h1]
      have hcb := subCost_le_one x b
      have hcy := subCost_le_one x y
      omega
  | a :: as, [], x, y => by
      have h1 := lev_append_append as [] x y
      simp only [List.nil_append] at h1
      simp only [List.nil_append, List.cons_append, lev_cons_cons, lev_nil_left, lev_nil_right,
        List.length_cons, List.length_append, List.length_nil, h1]
      have hca := subCost_le_one a y
      have hcx := subCost_le_one x y
      omega
  | a :: as, b :: bs, x, y => by
      have h1 := lev_append_append as (b :: bs) x y
      have h2 := lev_append_append (a :: as) bs x y
      have h3 := lev_append_append as bs x y
      simp only [List.cons_append] at h1 h2 ⊢
      rw [lev_cons_cons a b (as ++ [x]) (bs ++ [y]), h1, h2, h3,
        lev_cons_cons a b as (bs ++ [y]), lev_cons_cons a b (as ++ [x]) bs,
        lev_cons_cons a b as bs]
      exact min_grid _ _ _ _ _ _ _ _ _ _ _
termination_by xs ys _ _ => xs.length + ys.length

/-- Reversing both strings preserves the Levenshtein distance. -/
theorem lev_reverse_reverse : ∀ (xs ys : List Char),
    lev xs.reverse ys.reverse = lev xs ys
  | [], ys => by simp [lev_nil_left]
  | x :: xs, [] => by simp [lev_nil_right]
  | x :: xs, y :: ys => by
      rw [List.reverse_cons, List.reverse_cons, lev_append_append,
        ← List.reverse_cons y ys, ← List.reverse_cons x xs,
        lev_reverse_reverse xs (y :: ys), lev_reverse_reverse (x :: xs) ys,
        lev_reverse_reverse xs ys, lev_cons_cons]
termination_by xs ys => xs.length + ys.length

/-- Symmetry of the Levenshtein distance. -/
theorem lev_comm : ∀ (xs ys : List Char), lev xs ys = lev ys xs
  | [], ys => by simp [lev_nil_left, lev_nil_right]
  | x :: xs, [] => by simp [lev_nil_left, lev_nil_right]
  | x :: xs, y :: ys => by
      rw [lev_cons_cons, lev_cons_cons y x,
        lev_comm xs (y :: ys), lev_comm (x :: xs) ys, lev_comm xs ys, subCost_comm]
      exact min_left_comm _ _ _
termination_by xs ys => xs.length + ys.length

/-- `lev` agrees with Mathlib's `levenshtein` at the default unit-cost
structure. -/
theorem lev_eq_levenshtein : ∀ (xs ys : List Char),
    lev xs ys = levenshtein Levenshtein.defaultCost xs ys
  | [], [] => by simp [lev_nil_left]
  | [], y :: ys => by
      rw [lev_nil_left, levenshtein_nil_cons, ← lev_eq_levenshtein [] ys, lev_nil_left]
      simp
      omega
  | x :: xs, [] => by
      rw [lev_nil_right, levenshtein_cons_nil, ← lev_eq_levenshtein xs [], lev_nil_right]
      simp
      omega
  | x :: xs, y :: ys => by
      rw [lev_cons_cons, levenshtein_cons_cons,
        lev_eq_levenshtein xs (y :: ys), lev_eq_levenshtein (x :: xs) ys,
        lev_eq_levenshtein xs ys]
      simp only [Levenshtein.defaultCost_delete, Levenshtein.defaultCost_insert,
        Levenshtein.defaultCost_substitute, subCost]
      congr 1
      · omega
      · congr 1
        · omega
        · exact Nat.add_comm _ _
termination_by xs ys => xs.length + ys.length

/-! ## The DP row invariant of the fuzzy search -/

theorem revPrefixes_eq_cons (acc ws : List Char) :
    revPrefixes acc ws = acc :: (revPrefixes acc ws).tail := by
  cases ws <;> simp [revPrefixes]

theorem map_revPrefixes_getD (f : List Char → Nat) (d : Nat) :
    ∀ (ws acc : List Char),
      ((revPrefixes acc ws).map f).getD ws.length d = f (ws.reverse ++ acc) := by
  intro ws
  induction ws with
  | nil => intro acc; simp [revPrefixes]
  | cons w ws ih =>
      intro acc
      have hi := ih (w :: acc)
      simp only [revPrefixes, List.map_cons, List.length_cons, List.getD_cons_succ, hi,
        List.reverse_cons]
      simp

theorem map_lev_nil_revPrefixes :
    ∀ (ws acc : List Char),
      (revPrefixes acc ws).map (lev []) = List.range' acc.length (ws.length + 1) := by
  intro ws
  induction ws with
  | nil => intro acc; simp [revPrefixes, lev_nil_left, List.range']
  | cons w ws ih =>
      intro acc
      have hi := ih (w :: acc)
      simp only [revPrefixes, List.map_cons, hi, List.length_cons, lev_nil_left]
      rfl

theorem rowFor_nil (word : List Char) :
    rowFor word [] = List.range (word.length + 1) := by
  rw [rowFor, map_lev_nil_revPrefixes word [], List.range_eq_range']
  rfl

theorem rowAux_spec (c : Char) :
    ∀ (ws acc q : List Char),
      rowAux c ws (lev (c :: q) acc) ((revPrefixes acc ws).map (lev q)) =
        ((revPrefixes acc ws).tail).map (lev (c :: q)) := by
  intro ws
  induction ws with
  | nil => intro acc q; simp [revPrefixes, rowAux]
  | cons w ws ih =>
      intro acc q
      obtain ⟨T, hT⟩ : ∃ T, revPrefixes (w :: acc) ws = (w :: acc) :: T :=
        ⟨(revPrefixes (w :: acc) ws).tail, revPrefixes_eq_cons _ _⟩
      have hv : min (lev (c :: q) acc + 1)
          (min (lev q (w :: acc) + 1) (lev q acc + if w = c then 0 else 1)) =
          lev (c :: q) (w :: acc) := by
        rw [lev_cons_cons]
        have hsub : (if w = c then (0 : Nat) else 1) = subCost c w := by
          rw [subCost_comm]
          rfl
        rw [hsub]
        exact min_left_comm _ _ _
      have hrec := ih (w :: acc) q
      rw [hT] at hrec
      simp only [List.map_cons, List.tail_cons] at hrec
      rw [revPrefixes, hT]
      simp only [List.map_cons, List.tail_cons, rowAux, hv, hrec]

theorem currRowOf_rowFor (word : List Char) (c : Char) (q : List Char) :
    currRowOf word c (rowFor word q) = rowFor word (c :: q) := by
  rw [rowFor, revPrefixes_eq_cons [] word, List.map_cons]
  rw [currRowOf]
  have h0 : lev q [] + 1 = lev (c :: q) [] := by
    rw [lev_nil_right, lev_nil_right, List.length_cons]
  rw [h0, ← List.map_cons (lev q), ← revPrefixes_eq_cons [] word, rowAux_spec]
  rw [rowFor, revPrefixes_eq_cons [] word, List.map_cons]
  rw [lev_nil_right]
  rfl

theorem rowFor_getD_length (word q : List Char) :
    (rowFor word q).getD word.length 0 = lev q word.reverse := by
  rw [rowFor, map_revPrefixes_getD (lev q) 0 word []]
  simp

theorem revPrefixes_mem :
    ∀ (l₁ l₂ acc : List Char), (l₁.reverse ++ acc) ∈ revPrefixes acc (l₁ ++ l₂) := by
  intro l₁
  induction l₁ with
  | nil =>
      intro l₂ acc
      simp only [List.reverse_nil, List.nil_append]
      rw [revPrefixes_eq_cons]
      exact List.mem_cons_self _ _
  | cons a l₁ ih =>
      intro l₂ acc
      have hi := ih l₂ (a :: acc)
      simp only [List.reverse_cons, List.append_assoc, List.singleton_append]
      rw [List.cons_append, revPrefixes]
      exact List.mem_cons_of_mem _ hi

theorem jsMin_le_of_mem : ∀ {l : List Nat} {x : Nat}, x ∈ l → jsMin l ≤ x := by
  have haux : ∀ (l : List Nat) (a : Nat),
      l.foldl min a ≤ a ∧ ∀ x ∈ l, l.foldl min a ≤ x := by
    intro l
    induction l with
    | nil => intro a; simp
    | cons b l ih =>
        intro a
        refine ⟨?_, ?_⟩
        · exact le_trans (ih (min a b)).1 (min_le_left a b)
        · intro x hx
          rcases List.mem_cons.1 hx with rfl | hx
          · exact le_trans (ih (min a x)).1 (min_le_right a x)
          · exact (ih (min a b)).2 x hx
  intro l x hx
  cases l with
  | nil => simp at hx
  | cons a l =>
      rcases List.mem_cons.1 hx with rfl | hx
      · exact (haux l x).1
      · exact (haux l a).2 x hx

/-- The pruning bound of the fuzzy dfs: the minimum of the DP row for the
(reversed) path `q` is a lower bound on the distance between any
extension of the path and the search word. -/
theorem rowFor_min_le (word q ext : List Char) :
    jsMin (rowFor word q) ≤ lev (ext ++ q) word.reverse := by
  obtain ⟨t, hsuff, hle⟩ :=
    le_levenshtein_append (C := Levenshtein.defaultCost) word.reverse ext q
  obtain ⟨u, hu⟩ := hsuff
  have hmem : t ∈ revPrefixes [] word := by
    have : word = t.reverse ++ u.reverse := by
      have := congrArg List.reverse hu
      simpa [List.reverse_append] using this.symm
    have hm := revPrefixes_mem t.reverse u.reverse []
    rw [List.reverse_reverse, List.append_nil] at hm
    rw [this]
    exact hm
  have hrow : lev q t ∈ rowFor word q := by
    rw [rowFor]
    exact List.mem_map_of_mem (lev q) hmem
  refine le_trans (jsMin_le_of_mem hrow) ?_
  rw [lev_comm q t, lev_eq_levenshtein t q, lev_comm (ext ++ q) word.reverse,
    lev_eq_levenshtein word.reverse (ext ++ q)]
  exact hle

/-! ## C1: fuzzy search membership -/

mutual

theorem mem_fuzzyDfs : ∀ (n : Node) (word : List Char) (maxD : Nat) (p : List Char)
    (c : Char) (v : List Char), wfNode n →
    (v ∈ fuzzyDfs word maxD n (p ++ [c]) c (rowFor word p.reverse) ↔
      ∃ s, v = (p ++ [c]) ++ s ∧ search n s = true ∧ lev ((p ++ [c]) ++ s) word ≤ maxD)
  | .mk cs e, word, maxD, p, c, v, hwf => by
      have hrev : (p ++ [c]).reverse = c :: p.reverse := by simp
      have hcurr : currRowOf word c (rowFor word p.reverse) =
          rowFor word (p ++ [c]).reverse := by
        rw [currRowOf_rowFor, hrev]
      have hval : (rowFor word (p ++ [c]).reverse).getD word.length 0 =
          lev (p ++ [c]) word := by
        rw [rowFor_getD_length, lev_reverse_reverse]
      rw [fuzzyDfs, hcurr, hval]
      constructor
      · intro hm
        rcases List.mem_append.1 hm with hm | hm
        · split at hm
          · rename_i hcond
            simp only [Bool.and_eq_true, decide_eq_true_eq] at hcond
            have hv : v = p ++ [c] := by simpa using hm
            refine ⟨[], by simp [hv], ?_, ?_⟩
            · rw [search_nil]
              exact hcond.2
            · simpa using hcond.1
          · simp at hm
        · split at hm
          · obtain ⟨q, hq, s, rfl, hs, hlev⟩ :=
              (mem_fuzzyAll cs word maxD (p ++ [c]) v hwf.2).1 hm
            refine ⟨q.1 :: s, rfl, ?_, hlev⟩
            rw [search_cons]
            simp only [Node.children]
            rw [getChild_of_mem_nodup (by simpa using hq) hwf.1]
            exact hs
          · simp at hm
      · rintro ⟨s, rfl, hs, hlev⟩
        cases s with
        | nil =>
            refine List.mem_append.2 (Or.inl ?_)
            rw [search_nil] at hs
            have hcond : (decide (lev (p ++ [c]) word ≤ maxD) && e) = true := by
              simp only [Bool.and_eq_true, decide_eq_true_eq]
              exact ⟨by simpa using hlev, by simpa [Node.isEndOfWord] using hs⟩
            rw [if_pos hcond]
            simp
        | cons a s =>
            refine List.mem_append.2 (Or.inr ?_)
            have hmin : jsMin (rowFor word (p ++ [c]).reverse) ≤ maxD := by
              refine le_trans ?_ hlev
              have hb := rowFor_min_le word ((p ++ [c]).reverse) ((a :: s).reverse)
              rw [← List.reverse_append, lev_reverse_reverse] at hb
              exact hb
            rw [if_pos (by simpa using hmin)]
            rw [search_cons] at hs
            simp only [Node.children] at hs
            cases hg : getChild cs a with
            | none => rw [hg] at hs; simp at hs
            | some child =>
                rw [hg] at hs
                exact (mem_fuzzyAll cs word maxD (p ++ [c]) _ hwf.2).2
                  ⟨(a, child), getChild_mem hg, s, rfl, hs, hlev⟩

theorem mem_fuzzyAll : ∀ (cs : List (Char × Node)) (word : List Char) (maxD : Nat)
    (pfx : List Char) (v : List Char), wfAll cs →
    (v ∈ fuzzyAll word maxD cs pfx (rowFor word pfx.reverse) ↔
      ∃ q ∈ cs, ∃ s, v = pfx ++ q.1 :: s ∧ search q.2 s = true ∧
        lev (pfx ++ q.1 :: s) word ≤ maxD)
  | [], word, maxD, pfx, v, _ => by simp [fuzzyAll]
  | (ch, child) :: rest, word, maxD, pfx, v, hwf => by
      rw [fuzzyAll]
      constructor
      · intro hm
        rcases List.mem_append.1 hm with hm | hm
        · obtain ⟨s, hvs, hs, hlev⟩ :=
            (mem_fuzzyDfs child word maxD pfx ch v hwf.1).1 hm
          refine ⟨(ch, child), by simp, s, by simpa using hvs, hs, ?_⟩
          simpa using hlev
        · obtain ⟨q, hq, s, hvs, hs, hlev⟩ :=
            (mem_fuzzyAll rest word maxD pfx v hwf.2).1 hm
          exact ⟨q, List.mem_cons_of_mem _ hq, s, hvs, hs, hlev⟩
      · rintro ⟨q, hq, s, rfl, hs, hlev⟩
        rcases List.mem_cons.1 hq with heq | hq
        · subst heq
          refine List.mem_append.2 (Or.inl ?_)
          refine (mem_fuzzyDfs child word maxD pfx ch _ hwf.1).2 ⟨s, by simp, hs, ?_⟩
          simpa using hlev
        · exact List.mem_append.2 (Or.inr
            ((mem_fuzzyAll rest word maxD pfx _ hwf.2).2 ⟨q, hq, s, rfl, hs, hlev⟩))

end

mutual

theorem nodup_fuzzyDfs : ∀ (n : Node) (word : List Char) (maxD : Nat) (p : List Char)
    (c : Char), wfNode n →
    (fuzzyDfs word maxD n (p ++ [c]) c (rowFor word p.reverse)).Nodup
  | .mk cs e, word, maxD, p, c, hwf => by
      have hrev : (p ++ [c]).reverse = c :: p.reverse := by simp
      have hcurr : currRowOf word c (rowFor word p.reverse) =
          rowFor word (p ++ [c]).reverse := by
        rw [currRowOf_rowFor, hrev]
      rw [fuzzyDfs, hcurr]
      refine List.Nodup.append ?_ ?_ ?_
      · split
        · simp
        · simp
      · split
        · exact nodup_fuzzyAll cs word maxD (p ++ [c]) hwf.2 hwf.1
        · simp
      · intro v hv1 hv2
        have hv : v = p ++ [c] := by
          split at hv1
          · simpa using hv1
          · simp at hv1
        split at hv2
        · obtain ⟨q, _, s, hvs, _, _⟩ :=
            (mem_fuzzyAll cs word maxD (p ++ [c]) v hwf.2).1 hv2
          rw [hv] at hvs
          have := congrArg List.length hvs
          simp at this
        · simp at hv2

theorem nodup_fuzzyAll : ∀ (cs : List (Char × Node)) (word : List Char) (maxD : Nat)
    (pfx : List Char), wfAll cs → (cs.map Prod.fst).Nodup →
    (fuzzyAll word maxD cs pfx (rowFor word pfx.reverse)).Nodup
  | [], word, maxD, pfx, _, _ => by simp [fuzzyAll]
  | (ch, child) :: rest, word, maxD, pfx, hwf, hkeys => by
      rw [fuzzyAll]
      simp only [List.map_cons, List.nodup_cons] at hkeys
      refine List.Nodup.append ?_ ?_ ?_
      · exact nodup_fuzzyDfs child word maxD pfx ch hwf.1
      · exact nodup_fuzzyAll rest word maxD pfx hwf.2 hkeys.2
      · intro v hv1 hv2
        obtain ⟨s, hvs, _, _⟩ :=
          (mem_fuzzyDfs child word maxD pfx ch v hwf.1).1 hv1
        obtain ⟨q, hq, s', hvs', _, _⟩ :=
          (mem_fuzzyAll rest word maxD pfx v hwf.2).1 hv2
        rw [hvs'] at hvs
        have hcons : q.1 :: s' = ch :: s := by
          have := hvs
          simp only [List.append_assoc, List.singleton_append] at this
          exact List.append_cancel_left this
        have hq1 : q.1 = ch := (List.cons.injEq .. ▸ hcons).1
        exact hkeys.1 (hq1 ▸ List.mem_map_of_mem Prod.fst hq)

end

/-- Membership characterization of `fuzzySearch` on well-formed tries. -/
theorem mem_fuzzySearch {root : Node} (hwf : wfNode root) (word : List Char) (maxD : Nat)
    (v : List Char) :
    v ∈ fuzzySearch root word maxD ↔
      (search root v = true ∧ v ≠ [] ∧ lev v word ≤ maxD) := by
  cases root with
  | mk cs e =>
      rw [fuzzySearch, ← rowFor_nil]
      have hiff := mem_fuzzyAll cs word maxD [] v hwf.2
      simp only [List.reverse_nil] at hiff
      rw [show (Node.mk cs e).children = cs from rfl, hiff]
      constructor
      · rintro ⟨q, hq, s, rfl, hs, hlev⟩
        refine ⟨?_, by simp, by simpa using hlev⟩
        simp only [List.nil_append]
        rw [search_cons]
        simp only [Node.children]
        rw [getChild_of_mem_nodup (by simpa using hq) hwf.1]
        exact hs
      · rintro ⟨hs, hne, hlev⟩
        cases v with
        | nil => exact absurd rfl hne
        | cons a s =>
            rw [search_cons] at hs
            simp only [Node.children] at hs
            cases hg : getChild cs a with
            | none => rw [hg] at hs; simp at hs
            | some child =>
                rw [hg] at hs
                exact ⟨(a, child), getChild_mem hg, s, by simp, hs, by simpa using hlev⟩

/-- Counterexample to C1 as stated: inserting the empty string stores it
(`search("") = true`, distance 0 to the empty query), yet
`fuzzySearch("", 0)` does not return it — the recursion only starts at
the children of the root, which never emits. -/
theorem C1_counterexample :
    search (insertW emptyNode []) [] = true ∧ lev [] [] ≤ 0 ∧
      [] ∉ fuzzySearch (insertW emptyNode []) [] 0 := by
  refine ⟨rfl, by rw [lev_nil_left]; exact Nat.le_refl 0, ?_⟩
  intro h
  simp [fuzzySearch, fuzzyAll, insertW, Node.children, emptyNode] at h

/-- C1 as amended: on every reachable trie state, `fuzzySearch(W, d)`
returns, without duplicates, exactly the currently stored *nonempty*
words whose Levenshtein distance to `W` is at most `d` (a stored empty
string is never returned, since the root itself never emits). -/
theorem C1_fuzzy_exact (t : Node) (word : List Char) (maxD : Nat) (hr : Reachable t) :
    (fuzzySearch t word maxD).Nodup ∧
      ∀ v, v ∈ fuzzySearch t word maxD ↔
        (search t v = true ∧ v ≠ [] ∧ lev v word ≤ maxD) := by
  have hwf := (reachable_wf_pruned hr).1
  constructor
  · cases t with
    | mk cs e =>
        rw [fuzzySearch, ← rowFor_nil]
        have hnd := nodup_fuzzyAll cs word maxD [] hwf.2 hwf.1
        simpa using hnd
  · exact fun v => mem_fuzzySearch hwf word maxD v

/-- Witness for C1: the stored set {"apple", "app"} against the query
"aple" at distance 1. -/
theorem C1_fuzzy_exact_witness :
    Reachable (insertW (insertW emptyNode ['a', 'p', 'p', 'l', 'e']) ['a', 'p', 'p']) ∧
      ((fuzzySearch (insertW (insertW emptyNode ['a', 'p', 'p', 'l', 'e']) ['a', 'p', 'p'])
          ['a', 'p', 'l', 'e'] 1).Nodup ∧
        ∀ v, v ∈ fuzzySearch (insertW (insertW emptyNode ['a', 'p', 'p', 'l', 'e'])
            ['a', 'p', 'p']) ['a', 'p', 'l', 'e'] 1 ↔
          (search (insertW (insertW emptyNode ['a', 'p', 'p', 'l', 'e']) ['a', 'p', 'p'])
              v = true ∧ v ≠ [] ∧ lev v ['a', 'p', 'l', 'e'] ≤ 1)) :=
  ⟨Reachable.ins _ (Reachable.ins _ Reachable.empty),
    C1_fuzzy_exact _ _ _ (Reachable.ins _ (Reachable.ins _ Reachable.empty))⟩
